import Mathlib

/-!
Verification development for the `iota-wallet` core crate.

Strings from the Rust source are modelled as Lean `String` where only
equality matters, and as `List Char` where character-level processing
(trimming, splitting, digit parsing) matters.  Unsigned 64-bit machine
integers are modelled as `Nat` together with explicit `< 2 ^ 64` bounds
at the points where the source performs checked arithmetic
(`checked_mul` / `checked_add`).  Asynchronous RPC calls are modelled by
oracle environments passed explicitly to the embedded functions, and the
set of remote calls actually performed is returned as an explicit trace.
-/

namespace IotaWallet

/-! ## Basic machine-integer model (u64) -/

/-- The modulus of the `u64` machine type. -/
def u64Size : Nat := 2 ^ 64

/-- Model of `u64::checked_mul`. -/
def checked_mul (a b : Nat) : Option Nat :=
  if a * b < u64Size then some (a * b) else none

/-- Model of `u64::checked_add`. -/
def checked_add (a b : Nat) : Option Nat :=
  if a + b < u64Size then some (a + b) else none

/-! ## `sync_min_epoch` (src/core/src/network/history.rs, lines 259-266)

`u64::saturating_sub` coincides with truncated `Nat` subtraction, so the
embedding is direct. -/

/-- Embedding of `sync_min_epoch` from `network/history.rs`: the oldest
epoch a sync must reach, bridging the gap between the last sync point and
the current lookback window. -/
def sync_min_epoch (current_epoch lookback_epochs last_synced_epoch : Nat) : Nat :=
  let window_min := current_epoch - lookback_epochs
  if 0 < last_synced_epoch ∧ last_synced_epoch < window_min then
    last_synced_epoch
  else
    window_min

/-! ## Transaction filter tokens (src/core/src/network.rs, lines 205-231) -/

/-- The user-facing history filter. -/
inductive TransactionFilter
  | All
  | In
  | Out
  deriving DecidableEq, Repr

/-- Model of `str::to_lowercase` on the ASCII range (the only range the
accepted tokens occupy): uppercase ASCII letters are shifted to lowercase,
all other characters kept. -/
def lowerAscii (c : Char) : Char :=
  if 65 ≤ c.toNat ∧ c.toNat ≤ 90 then Char.ofNat (c.toNat + 32) else c

/-- Model of `String::to_lowercase`. -/
def toLowerStr (s : String) : String :=
  String.mk (s.data.map lowerAscii)

/-- Embedding of `TransactionFilter::from_str` (`network.rs`): matches the
lowercased input against the three accepted tokens, otherwise errors with a
message that interpolates the lowercased input. -/
def TransactionFilter.from_str (s : String) : Except String TransactionFilter :=
  let l := toLowerStr s
  if l = "in" then .ok .In
  else if l = "out" then .ok .Out
  else if l = "all" then .ok .All
  else .error ("Unknown transaction filter: '" ++ l ++ "'. Use 'in', 'out', or 'all'.")

/-- Embedding of `TransactionFilter::from_str_opt` (`network.rs`): an absent
or unparseable value defaults to `All`. -/
def TransactionFilter.from_str_opt (s : Option String) : TransactionFilter :=
  match s with
  | none => .All
  | some v =>
    match TransactionFilter.from_str v with
    | .ok f => f
    | .error _ => .All

/-! ## `faucet` (src/core/src/network.rs, lines 95-115) -/

/-- The network the client is bound to. -/
inductive Network
  | Mainnet
  | Testnet
  | Devnet
  | Custom
  deriving DecidableEq, Repr

/-- Remote faucet endpoints the client can invoke. -/
inductive FaucetEndpoint
  | TestnetFaucet
  | DevnetFaucet
  deriving DecidableEq, Repr

/-- Oracle for the remote behaviour of `FaucetClient::request_and_wait` on
each endpoint. -/
structure FaucetEnv where
  request_and_wait : FaucetEndpoint → Except String Unit

/-- Embedding of `NetworkClient::faucet` (`network.rs`).  Returns the
result together with the list of faucet endpoints actually invoked. -/
def faucet (network : Network) (env : FaucetEnv) :
    Except String Unit × List FaucetEndpoint :=
  match network with
  | .Mainnet => (.error "Faucet is not available on mainnet", [])
  | .Testnet =>
    match env.request_and_wait .TestnetFaucet with
    | .ok _ => (.ok (), [.TestnetFaucet])
    | .error e => (.error ("Faucet request failed: " ++ e), [.TestnetFaucet])
  | .Devnet =>
    match env.request_and_wait .DevnetFaucet with
    | .ok _ => (.ok (), [.DevnetFaucet])
    | .error e => (.error ("Faucet request failed: " ++ e), [.DevnetFaucet])
  | .Custom =>
    (.error "Faucet is not available for custom networks. Use --testnet or --devnet.", [])

/-! ## `send_iota` (src/core/src/network.rs, lines 53-92) -/

/-- Result of a successful transfer. -/
structure TransferResult where
  digest : String
  status : String
  deriving DecidableEq, Repr

/-- The dry-run response: it may carry an error payload. -/
structure DryRunResult where
  error : Option String
  deriving DecidableEq, Repr

/-- Transaction effects as consumed by `send_iota`: the digest and the
debug-rendered execution status. -/
structure TxEffects where
  digest : String
  status : String
  deriving DecidableEq, Repr

/-- The pipeline steps `send_iota` can perform, in order. -/
inductive SendStep
  | Build
  | DryRun
  | Sign
  | Execute
  deriving DecidableEq, Repr

/-- Oracle for the remote and signing collaborators of `send_iota`:
the transaction builder, the dry-run RPC, the signer and the execute RPC.
`Tx` and `Sig` are the opaque transaction and signature types. -/
structure SendEnv (Tx Sig : Type) where
  build : Except String Tx
  dry_run : Tx → Except String DryRunResult
  sign : Tx → Except String Sig
  execute : List Sig → Tx → Except String TxEffects

/-- Embedding of `NetworkClient::send_iota` (`network.rs`): build, dry-run,
sign, execute — failing fast at each stage with the source's context
message.  Returns the result together with the trace of steps performed. -/
def send_iota {Tx Sig : Type} (env : SendEnv Tx Sig) :
    Except String TransferResult × List SendStep :=
  match env.build with
  | .error e => (.error ("Failed to build transaction: " ++ e), [.Build])
  | .ok tx =>
    match env.dry_run tx with
    | .error e => (.error ("Dry run failed: " ++ e), [.Build, .DryRun])
    | .ok dry =>
      match dry.error with
      | some err =>
        (.error ("Transaction would fail: " ++ err), [.Build, .DryRun])
      | none =>
        match env.sign tx with
        | .error e =>
          (.error ("Failed to sign transaction: " ++ e), [.Build, .DryRun, .Sign])
        | .ok signature =>
          match env.execute [signature] tx with
          | .error e =>
            (.error ("Failed to execute transaction: " ++ e),
             [.Build, .DryRun, .Sign, .Execute])
          | .ok effects =>
            (.ok ⟨effects.digest, effects.status⟩,
             [.Build, .DryRun, .Sign, .Execute])

/-! ## `get_stakes` (src/core/src/network/staking.rs, lines 60-122) -/

/-- Stake status as mapped from the remote `stakeStatus` string. -/
inductive StakeStatus
  | Active
  | Pending
  | Unstaked
  deriving DecidableEq, Repr

/-- Summary of one staked object, generic over the opaque `ObjectId`
type. -/
structure StakedIotaSummary (OId : Type) where
  object_id : OId
  pool_id : OId
  principal : Nat
  stake_activation_epoch : Nat
  estimated_reward : Option Nat
  status : StakeStatus
  deriving DecidableEq, Repr

/-- The fields of one response node that `get_stakes` reads.  A field that
is absent or not a JSON string is `none`; a string-valued field is
`some`.  `activatedEpochId` models `activatedEpoch.epochId` read with
`as_u64`. -/
structure StakeNode where
  address : Option String
  stakeStatus : Option String
  activatedEpochId : Option Nat
  poolId : Option String
  principal : Option String
  estimatedReward : Option String

/-- Model of `str::parse::<u64>` used via `json_str_field::<u64>`
(`staking.rs` lines 10-14): an optional leading `+`, then one or more
ASCII digits, value below `2 ^ 64`.  Defined later in terms of the
character-level parser; declared here by reuse. -/
def stripPlus : List Char → List Char
  | '+' :: rest => rest
  | cs => cs

/-- ASCII decimal digit test (model of the digit check inside Rust's
`u64::from_str`). -/
def decDigit (c : Char) : Bool :=
  48 ≤ c.toNat && c.toNat ≤ 57

/-- Decimal value of a digit list, most significant digit first, on top of
an accumulator (the fold Rust's integer parsing performs). -/
def decValFrom (a : Nat) (cs : List Char) : Nat :=
  cs.foldl (fun acc c => acc * 10 + (c.toNat - 48)) a

/-- Model of `str::parse::<u64>`: optional leading `+`, at least one ASCII
digit, and the value must fit in `u64`. -/
def parseU64 (cs : List Char) : Option Nat :=
  let ds := stripPlus cs
  if ds.isEmpty then none
  else if ds.all decDigit then
    let v := decValFrom 0 ds
    if v < u64Size then some v else none
  else none

/-- `parseU64` on a `String`. -/
def parseU64Str (s : String) : Option Nat := parseU64 s.data

/-- The `stakeStatus` mapping of `get_stakes` (`staking.rs` lines
103-107): case-exact `ACTIVE` / `PENDING`, anything else `Unstaked`. -/
def stake_status_of (s : Option String) : StakeStatus :=
  match s with
  | some "ACTIVE" => StakeStatus.Active
  | some "PENDING" => StakeStatus.Pending
  | _ => StakeStatus.Unstaked

/-- Embedding of the per-node extraction loop of
`NetworkClient::get_stakes` (`staking.rs` lines 93-119), generic over the
opaque `ObjectId` type and its hex parser (`ObjectId::from_hex`, provided
by the SDK).  Returns `none` exactly when the row is dropped. -/
def parse_stake_node {OId : Type} (from_hex : String → Option OId)
    (node : StakeNode) : Option (StakedIotaSummary OId) :=
  let object_id := node.address.bind from_hex
  let pool_id := node.poolId.bind from_hex
  let principal := (node.principal.bind parseU64Str).getD 0
  let stake_activation_epoch := node.activatedEpochId.getD 0
  let estimated_reward := node.estimatedReward.bind parseU64Str
  let status :=
    stake_status_of node.stakeStatus
  match object_id, pool_id with
  | some o, some p =>
    some ⟨o, p, principal, stake_activation_epoch, estimated_reward, status⟩
  | _, _ => none

/-- Embedding of `NetworkClient::get_stakes` over an already-decoded list
of response nodes: each node is extracted, rows missing `object_id` or
`pool_id` are dropped. -/
def get_stakes {OId : Type} (from_hex : String → Option OId)
    (nodes : List StakeNode) : List (StakedIotaSummary OId) :=
  nodes.filterMap (parse_stake_node from_hex)

/-! ## Amount codec (src/core/src/display.rs)

Rust strings are modelled character-by-character as `List Char`. -/

/-- `1 IOTA = 1_000_000_000 nanos` (`NANOS_PER_IOTA` in `display.rs`). -/
def NANOS_PER_IOTA : Nat := 1000000000

/-- Model of the whitespace test used by `str::trim` (the ASCII fragment,
which is all that amount strings can contain). -/
def isWsChar (c : Char) : Bool :=
  c == ' ' || c == '\t' || c == '\n' || c == '\r'

/-- Model of `str::trim`: drop whitespace from both ends. -/
def trimChars (cs : List Char) : List Char :=
  ((cs.dropWhile isWsChar).reverse.dropWhile isWsChar).reverse

/-- Decimal rendering of a natural number, most significant digit first,
with explicit fuel (any fuel above the digit count yields the same
result).  Models Rust's `{}` formatting of a `u64`. -/
def decChars : Nat → Nat → List Char
  | 0, _ => []
  | fuel + 1, n =>
    if n < 10 then [Nat.digitChar n]
    else decChars fuel (n / 10) ++ [Nat.digitChar (n % 10)]

/-- Decimal rendering of a natural number (`fuel := n + 1` always
suffices). -/
def natToDecimal (n : Nat) : List Char := decChars (n + 1) n

/-- Embedding of `nanos_to_iota` (`display.rs` lines 11-15): the quotient
by `10 ^ 9`, a dot, and the remainder zero-padded on the left to nine
digits (`{frac:09}`). -/
def nanos_to_iota (n : Nat) : List Char :=
  let whole := natToDecimal (n / NANOS_PER_IOTA)
  let frac := natToDecimal (n % NANOS_PER_IOTA)
  whole ++ '.' :: (List.replicate (9 - frac.length) '0' ++ frac)

/-- Model of `str::split('.')`: splits into the (possibly empty) groups
between occurrences of the separator. -/
def splitOnChar (sep : Char) : List Char → List (List Char)
  | [] => [[]]
  | c :: rest =>
    match splitOnChar sep rest with
    | [] => if c = sep then [[], []] else [[c]]
    | g :: gs => if c = sep then [] :: g :: gs else (c :: g) :: gs

/-- Inverse of `splitOnChar`: interleave the separator between the
groups. -/
def joinSep (sep : Char) : List (List Char) → List Char
  | [] => []
  | [g] => g
  | g :: gs => g ++ sep :: joinSep sep gs

/-- Embedding of the body of `parse_iota_amount` (`display.rs` lines
26-80) after trimming.  Follows the source's control flow: empty check,
minus check, whole-string `u64` parse (bare integers are whole IOTA),
otherwise split on `.`, parse the two parts and combine with checked
arithmetic. -/
def parseIotaTrimmed (input : List Char) : Except String Nat :=
  if input.isEmpty then .error "Amount cannot be empty"
  else if input.head? = some '-' then .error "Amount must be positive"
  else
    match parseU64 input with
    | some nanos =>
      match checked_mul nanos NANOS_PER_IOTA with
      | some v => .ok v
      | none => .error "Amount too large"
    | none =>
      let parts := splitOnChar '.' input
      if parts.length > 2 then
        .error "Invalid amount format. Use IOTA units like '1.5' or '0.001'."
      else
        match parseU64 (parts.headD []) with
        | none => .error ("Invalid whole part: '" ++ String.mk (parts.headD []) ++ "'")
        | some whole =>
          let fracRes : Except String Nat :=
            if parts.length = 2 then
              let frac_str := (parts.getD 1 [])
              if frac_str.isEmpty then .ok 0
              else if frac_str.length > 9 then
                .error "Too many decimal places. IOTA supports up to 9."
              else
                let padded := frac_str ++ List.replicate (9 - frac_str.length) '0'
                match parseU64 padded with
                | some v => .ok v
                | none =>
                  .error ("Invalid fractional part: '" ++ String.mk frac_str ++ "'")
            else .ok 0
          match fracRes with
          | .error e => .error e
          | .ok frac_nanos =>
            match (checked_mul whole NANOS_PER_IOTA).bind
                (fun w => checked_add w frac_nanos) with
            | some total => .ok total
            | none => .error "Amount too large"

/-- Embedding of `parse_iota_amount` (`display.rs` lines 26-80): trim,
then parse. -/
def parse_iota_amount (raw : List Char) : Except String Nat :=
  parseIotaTrimmed (trimChars raw)

/-- The spec's claimed accepted-input pattern, written from its words:
the trimmed input must match the regular expression
`^[0-9]+(\.[0-9]{0,9})?$` with the trailing dot allowed — no sign, no
exponent. -/
def specRegexAccepts (cs : List Char) : Bool :=
  match splitOnChar '.' (trimChars cs) with
  | [w] => !w.isEmpty && w.all decDigit
  | [w, f] => !w.isEmpty && w.all decDigit && f.length ≤ 9 && f.all decDigit
  | _ => false

/-- The amended accepted-input pattern: the trimmed input is either a
`u64` numeral (optional leading `+`, then ASCII digits, value below
`2 ^ 64`) whose whole-IOTA value scaled by `10 ^ 9` fits `u64`, or such a
numeral followed by a dot and an optional fractional part of at most nine
characters that, right-padded with `'0'` to nine characters, is itself a
`u64` numeral (so a leading `+` is tolerated there too), with the
combined nano value fitting `u64`. -/
def amendedAccepts (cs : List Char) : Bool :=
  match splitOnChar '.' (trimChars cs) with
  | [w] =>
    match parseU64 w with
    | some v => decide (v * NANOS_PER_IOTA < u64Size)
    | none => false
  | [w, f] =>
    match parseU64 w with
    | none => false
    | some wv =>
      if f.isEmpty then decide (wv * NANOS_PER_IOTA < u64Size)
      else if f.length > 9 then false
      else
        match parseU64 (f ++ List.replicate (9 - f.length) '0') with
        | none => false
        | some fv =>
          decide (wv * NANOS_PER_IOTA < u64Size ∧
            wv * NANOS_PER_IOTA + fv < u64Size)
  | _ => false

/-! ## History merge (src/core/src/network/history.rs, lines 21-69) -/

/-- Direction attributed to a history entry. -/
inductive TransactionDirection
  | In
  | Out
  deriving DecidableEq, Repr

/-- A history entry, keyed by digest (data model of §3 of the spec; the
struct lives in `network/types.rs`, outside `src/`, but every field used
by the merge is visible in `history.rs`). -/
structure TransactionSummary where
  digest : String
  kind : String
  epoch : Nat
  lamport_version : Nat
  timestamp : Option String
  sender : Option String
  amount : Option Nat
  direction : Option TransactionDirection
  deriving DecidableEq, Repr

/-- One item of a remote one-sided feed: its digest, the epoch from its
effects, and the lamport version. -/
structure FeedItem where
  digest : String
  epoch : Nat
  lamport_version : Nat
  deriving DecidableEq, Repr

/-- Modelled from the spec: `transaction_summary_from_graphql`
(`network/types.rs`, absent from `src/`) converts one feed item to a
`TransactionSummary`, stamping the given direction (§4.5 step 2 of the
spec: "Convert each item to a TransactionSummary, stamping direction=Out
on the sent page and direction=In on the received page"); `kind` is a
generic placeholder and the optional fields are left absent. -/
def transaction_summary_from_graphql (item : FeedItem)
    (direction : TransactionDirection) : TransactionSummary :=
  { digest := item.digest
    kind := "transaction"
    epoch := item.epoch
    lamport_version := item.lamport_version
    timestamp := none
    sender := none
    amount := none
    direction := some direction }

/-- The comparator of `history.rs` line 51-55 as a boolean "less or
equal": `a` may precede `b` when `(a.epoch, a.lamport_version)` is
greater or equal to `(b.epoch, b.lamport_version)` lexicographically —
i.e. descending order. -/
def historyLe (a b : TransactionSummary) : Bool :=
  b.epoch < a.epoch || (b.epoch == a.epoch && b.lamport_version ≤ a.lamport_version)

/-- Stable insertion into an already sorted list: the new element goes in
front of the first element it may precede, hence before any element it
ties with that occurs later in the original list. -/
def insertS {α : Type} (le : α → α → Bool) (a : α) : List α → List α
  | [] => [a]
  | b :: l => if le a b then a :: b :: l else b :: insertS le a l

/-- Stable sort by a boolean "less or equal" comparator.  Models Rust's
stable `slice::sort_by`: for a total preorder comparator the output of a
stable sort is unique, so any stable sort is a faithful model. -/
def stableSortBy {α : Type} (le : α → α → Bool) : List α → List α
  | [] => []
  | a :: l => insertS le a (stableSortBy le l)

/-- The merge step of `NetworkClient::transactions` (`history.rs` lines
43-50): the digests of the sent side form the `seen` set, then every
received item whose digest is not seen is appended after the sent
items. -/
def merge_sent_recv (sentS recvS : List TransactionSummary) :
    List TransactionSummary :=
  let seen := sentS.map (fun t => t.digest)
  sentS ++ recvS.filter (fun t => !(seen.contains t.digest))

/-- Embedding of `NetworkClient::transactions` (`network/history.rs`
lines 21-69) with the two one-sided remote feed results supplied as
inputs: stamp directions, merge with the sent side winning digest
collisions, sort descending by `(epoch, lamport_version)`, then apply the
user filter. -/
def transactions (filter : TransactionFilter) (sent recv : List FeedItem) :
    List TransactionSummary :=
  let sentS := sent.map (fun i => transaction_summary_from_graphql i .Out)
  let recvS := recv.map (fun i => transaction_summary_from_graphql i .In)
  let sorted := stableSortBy historyLe (merge_sent_recv sentS recvS)
  match filter with
  | .All => sorted
  | .In => sorted.filter (fun t => t.direction = some .In)
  | .Out => sorted.filter (fun t => t.direction = some .Out)

/-! ## Concrete fixtures used by witnesses and counterexamples -/

/-- A `send_iota` environment whose dry run reports an error payload. -/
def dryRunFailEnv : SendEnv Unit Unit :=
  { build := .ok ()
    dry_run := fun _ => .ok ⟨some "boom"⟩
    sign := fun _ => .ok ()
    execute := fun _ _ => .ok ⟨"d", "s"⟩ }

/-- A faucet environment whose requests all succeed. -/
def faucetOkEnv : FaucetEnv := ⟨fun _ => .ok ()⟩

/-- A concrete hex parser over `Nat` object ids, for witnesses. -/
def exFromHex (s : String) : Option Nat :=
  if s = "0x1" then some 1 else if s = "0x2" then some 2 else none

/-- A stake node whose `principal` is present but not a decimal string. -/
def exStakeNode : StakeNode :=
  { address := some "0x1"
    stakeStatus := some "ACTIVE"
    activatedEpochId := some 5
    poolId := some "0x2"
    principal := some "oops"
    estimatedReward := none }

/-- The sent feed of the spec's concrete merge scenario. -/
def exSent : List FeedItem := [⟨"D1", 5, 2⟩, ⟨"D2", 4, 0⟩]

/-- The received feed of the spec's concrete merge scenario. -/
def exRecv : List FeedItem := [⟨"D2", 4, 0⟩, ⟨"D3", 5, 1⟩]

/-! # Lemmas -/

theorem insertS_cons_pos {α : Type} (le : α → α → Bool) (a b : α) (l : List α)
    (h : le a b = true) : insertS le a (b :: l) = a :: b :: l := by
  simp [insertS, h]

theorem insertS_cons_neg {α : Type} (le : α → α → Bool) (a b : α) (l : List α)
    (h : ¬le a b = true) : insertS le a (b :: l) = b :: insertS le a l := by
  simp [insertS, h]

theorem mem_insertS {α : Type} (le : α → α → Bool) (a x : α) (l : List α) :
    x ∈ insertS le a l ↔ x = a ∨ x ∈ l := by
  induction l with
  | nil => simp [insertS]
  | cons b l ih =>
    by_cases h : le a b = true
    · rw [insertS_cons_pos le a b l h]
      simp [List.mem_cons]
    · rw [insertS_cons_neg le a b l h]
      simp only [List.mem_cons, ih]
      tauto

theorem insertS_perm {α : Type} (le : α → α → Bool) (a : α) (l : List α) :
    (insertS le a l).Perm (a :: l) := by
  induction l with
  | nil => simp [insertS]
  | cons b l ih =>
    by_cases h : le a b = true
    · rw [insertS_cons_pos le a b l h]
    · rw [insertS_cons_neg le a b l h]
      exact (ih.cons b).trans (List.Perm.swap a b l)

theorem stableSortBy_perm {α : Type} (le : α → α → Bool) (l : List α) :
    (stableSortBy le l).Perm l := by
  induction l with
  | nil => exact List.Perm.refl _
  | cons a l ih =>
    exact (insertS_perm le a (stableSortBy le l)).trans (ih.cons a)

theorem pairwise_insertS {α : Type} (le : α → α → Bool)
    (htot : ∀ a b, le a b = true ∨ le b a = true)
    (htrans : ∀ a b c, le a b = true → le b c = true → le a c = true)
    (a : α) (l : List α) (h : l.Pairwise (fun x y => le x y = true)) :
    (insertS le a l).Pairwise (fun x y => le x y = true) := by
  induction l with
  | nil => simp [insertS]
  | cons b l ih =>
    obtain ⟨hb, hl⟩ := List.pairwise_cons.mp h
    by_cases hab : le a b = true
    · rw [insertS_cons_pos le a b l hab]
      refine List.pairwise_cons.mpr ⟨?_, List.pairwise_cons.mpr ⟨hb, hl⟩⟩
      intro x hx
      rcases List.mem_cons.mp hx with rfl | hx
      · exact hab
      · exact htrans a b x hab (hb x hx)
    · rw [insertS_cons_neg le a b l hab]
      refine List.pairwise_cons.mpr ⟨?_, ih hl⟩
      intro x hx
      rcases (mem_insertS le a x l).mp hx with rfl | hx
      · rcases htot x b with h' | h'
        · exact absurd h' hab
        · exact h'
      · exact hb x hx

theorem pairwise_stableSortBy {α : Type} (le : α → α → Bool)
    (htot : ∀ a b, le a b = true ∨ le b a = true)
    (htrans : ∀ a b c, le a b = true → le b c = true → le a c = true)
    (l : List α) :
    (stableSortBy le l).Pairwise (fun x y => le x y = true) := by
  induction l with
  | nil => exact List.Pairwise.nil
  | cons a l ih => exact pairwise_insertS le htot htrans a _ ih

theorem historyLe_total (a b : TransactionSummary) :
    historyLe a b = true ∨ historyLe b a = true := by
  simp only [historyLe, Bool.or_eq_true, Bool.and_eq_true, decide_eq_true_eq, beq_iff_eq]
  omega

theorem historyLe_trans (a b c : TransactionSummary) :
    historyLe a b = true → historyLe b c = true → historyLe a c = true := by
  simp only [historyLe, Bool.or_eq_true, Bool.and_eq_true, decide_eq_true_eq, beq_iff_eq]
  omega

/-! # Claim theorems -/

/-- C2 counterexample: the claim's "iff" fails at `(c, L, s) = (100, 7, 93)`:
`sync_min_epoch 100 7 93 = 93 = s` although `0 < s < max (c − L) 0` does not
hold (`93 < 93` is false). -/
theorem sync_min_epoch_iff_fails :
    sync_min_epoch 100 7 93 = 93 ∧ ¬(0 < 93 ∧ 93 < max (100 - 7) 0) := by
  decide

/-- C2 (amended): `sync_min_epoch (c, L, 0) = max (c − L) 0`; if
`0 < s < max (c − L) 0` then `sync_min_epoch (c, L, s) = s`, otherwise it is
`max (c − L) 0`; and `sync_min_epoch (c, L, s) = s` holds iff
`0 < s < max (c − L) 0` or `s = max (c − L) 0`. -/
theorem sync_min_epoch_spec (c L s : Nat) :
    sync_min_epoch c L 0 = max (c - L) 0 ∧
    (0 < s ∧ s < max (c - L) 0 → sync_min_epoch c L s = s) ∧
    (¬(0 < s ∧ s < max (c - L) 0) → sync_min_epoch c L s = max (c - L) 0) ∧
    (sync_min_epoch c L s = s ↔ (0 < s ∧ s < max (c - L) 0) ∨ s = max (c - L) 0) := by
  simp only [sync_min_epoch, Nat.max_zero]
  refine ⟨?_, ?_, ?_, ?_⟩
  · rw [if_neg (by omega : ¬(0 < (0 : Nat) ∧ 0 < c - L))]
  · intro h
    rw [if_pos h]
  · intro h
    rw [if_neg h]
  · by_cases h : 0 < s ∧ s < c - L
    · rw [if_pos h]
      tauto
    · rw [if_neg h]
      omega

/-- C2 witness: the amended statement applied at the spec's own test
vectors, with each hypothesis discharged concretely. -/
theorem sync_min_epoch_spec_witness :
    sync_min_epoch 100 7 0 = max (100 - 7) 0 ∧
    sync_min_epoch 14 7 3 = 3 ∧
    sync_min_epoch 15 7 14 = max (15 - 7) 0 :=
  ⟨(sync_min_epoch_spec 100 7 0).1,
   (sync_min_epoch_spec 14 7 3).2.1 (by decide),
   (sync_min_epoch_spec 15 7 14).2.2.1 (by decide)⟩

/-- C8 counterexample: for the non-lowercase token `"Foo"` the rejection
message interpolates the lowercased value `'foo'`, not the supplied value
`'Foo'` as the claim states. -/
theorem from_str_message_lowercases :
    TransactionFilter.from_str "Foo" =
      .error "Unknown transaction filter: 'foo'. Use 'in', 'out', or 'all'." ∧
    "Unknown transaction filter: 'foo'. Use 'in', 'out', or 'all'." ≠
      "Unknown transaction filter: 'Foo'. Use 'in', 'out', or 'all'." :=
  ⟨rfl, by decide⟩

/-- C8 (amended): `in`, `out`, `all` are accepted case-insensitively as
`In`, `Out`, `All`; every other value is rejected with the error
`"Unknown transaction filter: '{v.to_lowercase()}'. Use 'in', 'out', or
'all'."` (the message interpolates the lowercased value); an absent value
defaults to `All`. -/
theorem from_str_spec (s : String) :
    (toLowerStr s = "in" → TransactionFilter.from_str s = .ok .In) ∧
    (toLowerStr s = "out" → TransactionFilter.from_str s = .ok .Out) ∧
    (toLowerStr s = "all" → TransactionFilter.from_str s = .ok .All) ∧
    (toLowerStr s ≠ "in" → toLowerStr s ≠ "out" → toLowerStr s ≠ "all" →
      TransactionFilter.from_str s =
        .error ("Unknown transaction filter: '" ++ toLowerStr s ++
          "'. Use 'in', 'out', or 'all'.")) ∧
    TransactionFilter.from_str_opt none = .All := by
  refine ⟨?_, ?_, ?_, ?_, rfl⟩ <;>
    · intros
      simp only [TransactionFilter.from_str]
      simp_all

/-- C8 witness: the amended statement applied at concrete tokens, with
each hypothesis discharged. -/
theorem from_str_spec_witness :
    TransactionFilter.from_str "IN" = .ok .In ∧
    TransactionFilter.from_str "Foo" =
      .error ("Unknown transaction filter: '" ++ toLowerStr "Foo" ++
        "'. Use 'in', 'out', or 'all'.") ∧
    TransactionFilter.from_str_opt none = .All :=
  ⟨(from_str_spec "IN").1 (by decide),
   (from_str_spec "Foo").2.2.2.1 (by decide) (by decide) (by decide),
   (from_str_spec "Foo").2.2.2.2⟩

/-- C9 counterexample: on a Custom network the failure message is the
longer string `"Faucet is not available for custom networks. Use
--testnet or --devnet."`, not the claim's `"Faucet is not available for
custom networks"`. -/
theorem faucet_custom_message_longer :
    (faucet .Custom faucetOkEnv).1 =
      .error "Faucet is not available for custom networks. Use --testnet or --devnet." ∧
    "Faucet is not available for custom networks. Use --testnet or --devnet." ≠
      "Faucet is not available for custom networks" :=
  ⟨rfl, by decide⟩

/-- C9 (amended): `faucet` on Mainnet fails with `"Faucet is not
available on mainnet"` and performs no remote call; on Custom it fails
with `"Faucet is not available for custom networks. Use --testnet or
--devnet."` and performs no remote call; on Testnet and Devnet it invokes
exactly the corresponding faucet endpoint and succeeds when the
request-and-wait call confirms. -/
theorem faucet_spec (env : FaucetEnv) :
    faucet .Mainnet env = (.error "Faucet is not available on mainnet", []) ∧
    faucet .Custom env =
      (.error "Faucet is not available for custom networks. Use --testnet or --devnet.",
       []) ∧
    (faucet .Testnet env).2 = [.TestnetFaucet] ∧
    (faucet .Devnet env).2 = [.DevnetFaucet] ∧
    (∀ u, env.request_and_wait .TestnetFaucet = .ok u →
      faucet .Testnet env = (.ok (), [.TestnetFaucet])) ∧
    (∀ u, env.request_and_wait .DevnetFaucet = .ok u →
      faucet .Devnet env = (.ok (), [.DevnetFaucet])) := by
  refine ⟨rfl, rfl, ?_, ?_, ?_, ?_⟩
  · simp only [faucet]
    rcases env.request_and_wait .TestnetFaucet with _ | _ <;> rfl
  · simp only [faucet]
    rcases env.request_and_wait .DevnetFaucet with _ | _ <;> rfl
  · intro u h
    simp [faucet, h]
  · intro u h
    simp [faucet, h]

/-- C9 witness: the amended statement applied to a concrete environment,
with the confirmation hypothesis discharged. -/
theorem faucet_spec_witness :
    faucet .Mainnet faucetOkEnv = (.error "Faucet is not available on mainnet", []) ∧
    faucet .Testnet faucetOkEnv = (.ok (), [.TestnetFaucet]) :=
  ⟨(faucet_spec faucetOkEnv).1,
   (faucet_spec faucetOkEnv).2.2.2.2.1 () rfl⟩

/-- C1: `send_iota` returns a `TransferResult` only if the dry run
reported no error payload and the execute call completed; and when the
dry-run response carries an error payload, it fails with `"Transaction
would fail: {error}"` and performs neither the signing step nor the
execute step. -/
theorem send_iota_spec {Tx Sig : Type} (env : SendEnv Tx Sig) :
    (∀ r, (send_iota env).1 = .ok r →
      ∃ tx dry signature effects,
        env.build = .ok tx ∧
        env.dry_run tx = .ok dry ∧
        dry.error = none ∧
        env.sign tx = .ok signature ∧
        env.execute [signature] tx = .ok effects ∧
        r = ⟨effects.digest, effects.status⟩) ∧
    (∀ tx dry err, env.build = .ok tx → env.dry_run tx = .ok dry →
      dry.error = some err →
      send_iota env = (.error ("Transaction would fail: " ++ err), [.Build, .DryRun]) ∧
      SendStep.Sign ∉ (send_iota env).2 ∧
      SendStep.Execute ∉ (send_iota env).2) := by
  obtain ⟨build, dryf, signf, execf⟩ := env
  constructor
  · intro r hr
    rcases build with e | tx
    · simp [send_iota] at hr
    · rcases hd : dryf tx with e | dry <;> simp [send_iota, hd] at hr
      rcases he : dry.error with _ | err
      · rcases hs : signf tx with e | signature <;> simp [he, hs] at hr
        rcases hx : execf [signature] tx with e | effects <;> simp [hx] at hr
        refine ⟨tx, dry, signature, effects, rfl, hd, he, hs, hx, ?_⟩
        simp [hr]
      · simp [he] at hr
  · intro tx dry err hb hd he
    cases hb
    have hd' : dryf tx = Except.ok dry := hd
    simp [send_iota, hd', he]

/-- C1 witness: the theorem applied to a concrete environment whose dry
run reports the error payload `"boom"`. -/
theorem send_iota_spec_witness :
    send_iota dryRunFailEnv =
      (.error ("Transaction would fail: " ++ "boom"), [.Build, .DryRun]) :=
  ((send_iota_spec dryRunFailEnv).2 () ⟨some "boom"⟩ "boom" rfl rfl rfl).1

/-- C10: in `get_stakes`, a response node whose `address` and `poolId`
both parse as object ids yields a `StakedIotaSummary` even when its
`principal` field is missing or not a decimal u64 string: the row is kept
with `principal = 0` (and `estimated_reward = none` when that field is
missing or invalid too), rather than being dropped. -/
theorem get_stakes_keeps_default_principal {OId : Type}
    (from_hex : String → Option OId) (nodes : List StakeNode)
    (node : StakeNode) (o p : OId)
    (ho : node.address.bind from_hex = some o)
    (hp : node.poolId.bind from_hex = some p)
    (hprincipal : node.principal.bind parseU64Str = none)
    (hreward : node.estimatedReward.bind parseU64Str = none)
    (hmem : node ∈ nodes) :
    parse_stake_node from_hex node = some
      { object_id := o, pool_id := p, principal := 0,
        stake_activation_epoch := node.activatedEpochId.getD 0,
        estimated_reward := none,
        status := stake_status_of node.stakeStatus } ∧
    ({ object_id := o, pool_id := p, principal := 0,
       stake_activation_epoch := node.activatedEpochId.getD 0,
       estimated_reward := none,
       status := stake_status_of node.stakeStatus } : StakedIotaSummary OId) ∈
      get_stakes from_hex nodes := by
  have hnode : parse_stake_node from_hex node = some
      { object_id := o, pool_id := p, principal := 0,
        stake_activation_epoch := node.activatedEpochId.getD 0,
        estimated_reward := none,
        status := stake_status_of node.stakeStatus } := by
    unfold parse_stake_node
    rw [ho, hp, hprincipal, hreward]
    rfl
  exact ⟨hnode, List.mem_filterMap.mpr ⟨node, hmem, hnode⟩⟩

theorem mem_merge_sent_recv (sentS recvS : List TransactionSummary)
    (t : TransactionSummary) :
    t ∈ merge_sent_recv sentS recvS ↔
      t ∈ sentS ∨ (t ∈ recvS ∧ t.digest ∉ sentS.map (fun u => u.digest)) := by
  simp [merge_sent_recv, List.mem_append, List.mem_filter]

theorem merge_digest_nodup (sentS recvS : List TransactionSummary)
    (hs : (sentS.map (fun t => t.digest)).Nodup)
    (hr : (recvS.map (fun t => t.digest)).Nodup) :
    ((merge_sent_recv sentS recvS).map (fun t => t.digest)).Nodup := by
  simp only [merge_sent_recv]
  rw [List.map_append, List.nodup_append]
  refine ⟨hs, ((List.filter_sublist recvS).map (fun t => t.digest)).nodup hr, ?_⟩
  intro x hx1 hx2
  rcases List.mem_map.mp hx2 with ⟨t, htf, rfl⟩
  have hnot := (List.mem_filter.mp htf).2
  simp only [Bool.not_eq_true'] at hnot
  have : t.digest ∉ sentS.map (fun u => u.digest) := by
    simpa using hnot
  exact this hx1

theorem historyLe_iff (a b : TransactionSummary) :
    historyLe a b = true ↔
      (b.epoch < a.epoch ∨
        (b.epoch = a.epoch ∧ b.lamport_version ≤ a.lamport_version)) := by
  simp [historyLe, Bool.or_eq_true, Bool.and_eq_true, decide_eq_true_eq, beq_iff_eq]

/-- C3: in the merge performed by `transactions`, every digest that
appears in both the sent-by and the received-by feed is attributed
direction `Out` in the merged output — the sent side wins the
collision. -/
theorem transactions_collision_direction_out (sent recv : List FeedItem)
    (d : String) (hs : d ∈ sent.map FeedItem.digest)
    (_hr : d ∈ recv.map FeedItem.digest) :
    ∀ t ∈ transactions .All sent recv, t.digest = d →
      t.direction = some TransactionDirection.Out := by
  intro t ht htd
  simp only [transactions] at ht
  rw [(stableSortBy_perm historyLe _).mem_iff, mem_merge_sent_recv] at ht
  rcases ht with ht | ⟨_, hnot⟩
  · rcases List.mem_map.mp ht with ⟨i, _, rfl⟩
    rfl
  · exfalso
    apply hnot
    rw [htd]
    have : d ∈ sent.map (fun i => (transaction_summary_from_graphql i .Out).digest) := hs
    simpa [← List.map_map] using this

/-- C3 witness: the theorem applied to the concrete overlapping feeds of
the spec's merge scenario, where digest `"D2"` occurs on both sides. -/
theorem transactions_collision_direction_out_witness :
    (transaction_summary_from_graphql ⟨"D2", 4, 0⟩ .Out).direction =
      some TransactionDirection.Out :=
  transactions_collision_direction_out exSent exRecv "D2" (by decide) (by decide)
    (transaction_summary_from_graphql ⟨"D2", 4, 0⟩ .Out) (by decide) (by decide)

/-- C4: for feed results whose digests are internally distinct, the
merged history list produced by `transactions` contains no two summaries
with the same digest, whatever the filter. -/
theorem transactions_digest_nodup (filter : TransactionFilter)
    (sent recv : List FeedItem)
    (hs : (sent.map FeedItem.digest).Nodup)
    (hr : (recv.map FeedItem.digest).Nodup) :
    ((transactions filter sent recv).map (fun t => t.digest)).Nodup := by
  have hOut : ((sent.map (fun i => transaction_summary_from_graphql i .Out)).map
      (fun t => t.digest)).Nodup := by
    rw [List.map_map]
    exact hs
  have hIn : ((recv.map (fun i => transaction_summary_from_graphql i .In)).map
      (fun t => t.digest)).Nodup := by
    rw [List.map_map]
    exact hr
  have hmerge := merge_digest_nodup _ _ hOut hIn
  have hperm :=
    (stableSortBy_perm historyLe
      (merge_sent_recv (sent.map (fun i => transaction_summary_from_graphql i .Out))
        (recv.map (fun i => transaction_summary_from_graphql i .In)))).map
      (fun t => t.digest)
  have hsorted := hmerge.perm hperm.symm
  cases filter with
  | All => simpa only [transactions] using hsorted
  | In =>
    simp only [transactions]
    exact (List.Sublist.map (fun t : TransactionSummary => t.digest)
      (List.filter_sublist _)).nodup hsorted
  | Out =>
    simp only [transactions]
    exact (List.Sublist.map (fun t : TransactionSummary => t.digest)
      (List.filter_sublist _)).nodup hsorted

/-- C4 witness: the theorem applied to the concrete feeds of the spec's
merge scenario (each side's digests are distinct, and `"D2"` appears on
both sides). -/
theorem transactions_digest_nodup_witness :
    ((transactions .All exSent exRecv).map (fun t => t.digest)).Nodup :=
  transactions_digest_nodup .All exSent exRecv (by decide) (by decide)

/-- C5: the merged list returned by `transactions` is sorted descending
by `(epoch, lamport_version)` for every filter; and on the spec's
concrete scenario — sent `[D1 (5,2), D2 (4,0)]`, recv `[D2 (4,0),
D3 (5,1)]` — the All-merge is exactly `[D1 Out, D3 In, D2 Out]`. -/
theorem transactions_sorted_desc :
    (∀ (filter : TransactionFilter) (sent recv : List FeedItem),
      (transactions filter sent recv).Pairwise
        (fun a b => b.epoch < a.epoch ∨
          (b.epoch = a.epoch ∧ b.lamport_version ≤ a.lamport_version))) ∧
    transactions .All exSent exRecv =
      [transaction_summary_from_graphql ⟨"D1", 5, 2⟩ .Out,
       transaction_summary_from_graphql ⟨"D3", 5, 1⟩ .In,
       transaction_summary_from_graphql ⟨"D2", 4, 0⟩ .Out] := by
  constructor
  · intro filter sent recv
    have hsort :=
      (pairwise_stableSortBy historyLe historyLe_total historyLe_trans
        (merge_sent_recv
          (sent.map (fun i => transaction_summary_from_graphql i .Out))
          (recv.map (fun i => transaction_summary_from_graphql i .In)))).imp
        (fun h => (historyLe_iff _ _).mp h)
    cases filter with
    | All => simpa only [transactions] using hsort
    | In =>
      simp only [transactions]
      exact List.Pairwise.sublist (List.filter_sublist _) hsort
    | Out =>
      simp only [transactions]
      exact List.Pairwise.sublist (List.filter_sublist _) hsort
  · decide

/-- C10 witness: the theorem applied to a concrete node whose `principal`
is the non-numeric string `"oops"`. -/
theorem get_stakes_keeps_default_principal_witness :
    parse_stake_node exFromHex exStakeNode = some
      { object_id := 1, pool_id := 2, principal := 0,
        stake_activation_epoch := exStakeNode.activatedEpochId.getD 0,
        estimated_reward := none,
        status := stake_status_of exStakeNode.stakeStatus } :=
  (get_stakes_keeps_default_principal exFromHex [exStakeNode] exStakeNode 1 2
    rfl rfl rfl rfl (List.mem_singleton.mpr rfl)).1

theorem decValFrom_nil (a : Nat) : decValFrom a [] = a := rfl

theorem decValFrom_cons (a : Nat) (c : Char) (l : List Char) :
    decValFrom a (c :: l) = decValFrom (a * 10 + (c.toNat - 48)) l := rfl

theorem decValFrom_append (a : Nat) (l m : List Char) :
    decValFrom a (l ++ m) = decValFrom (decValFrom a l) m := by
  simp [decValFrom, List.foldl_append]

theorem digitChar_spec (n : Nat) (h : n < 10) :
    (Nat.digitChar n).toNat = 48 + n ∧ decDigit (Nat.digitChar n) = true := by
  interval_cases n <;> exact ⟨rfl, rfl⟩

theorem decChars_spec (fuel : Nat) :
    ∀ n, n < 10 ^ fuel →
      decValFrom 0 (decChars fuel n) = n ∧ (decChars fuel n).all decDigit = true := by
  induction fuel with
  | zero =>
    intro n h
    interval_cases n
    exact ⟨rfl, rfl⟩
  | succ fuel ih =>
    intro n h
    by_cases h10 : n < 10
    · obtain ⟨hval, hdig⟩ := digitChar_spec n h10
      refine ⟨?_, ?_⟩
      · simp [decChars, h10, decValFrom, hval]
      · simp [decChars, h10, hdig]
    · have hdiv : n / 10 < 10 ^ fuel := by
        rw [Nat.div_lt_iff_lt_mul (by omega)]
        calc n < 10 ^ (fuel + 1) := h
          _ = 10 ^ fuel * 10 := by rw [Nat.pow_succ]
      obtain ⟨ihval, ihdig⟩ := ih (n / 10) hdiv
      obtain ⟨hval, hdig⟩ := digitChar_spec (n % 10) (Nat.mod_lt n (by omega))
      refine ⟨?_, ?_⟩
      · simp only [decChars, h10, if_false, decValFrom_append, ihval, decValFrom_cons,
          decValFrom_nil, hval]
        omega
      · simp [decChars, h10, List.all_append, ihdig, hdig]

theorem decChars_ne_nil (fuel n : Nat) (h : 0 < fuel) : decChars fuel n ≠ [] := by
  cases fuel with
  | zero => omega
  | succ fuel =>
    by_cases h10 : n < 10 <;> simp [decChars, h10]

theorem decChars_length_le (fuel : Nat) :
    ∀ n k, n < 10 ^ k → 0 < k → (decChars fuel n).length ≤ k := by
  induction fuel with
  | zero =>
    intro n k _ _
    simp [decChars]
  | succ fuel ih =>
    intro n k hn hk
    by_cases h10 : n < 10
    · simp only [decChars, h10, if_true, List.length_cons, List.length_nil]
      omega
    · have hk2 : 2 ≤ k := by
        by_contra hcon
        have hk1 : k = 1 := by omega
        subst hk1
        simp [Nat.pow_one] at hn
        omega
      have hdiv : n / 10 < 10 ^ (k - 1) := by
        rw [Nat.div_lt_iff_lt_mul (by omega)]
        calc n < 10 ^ k := hn
          _ = 10 ^ (k - 1) * 10 := by
            rw [← Nat.pow_succ]
            congr 1
            omega
      have := ih (n / 10) (k - 1) hdiv (by omega)
      simp only [decChars, h10, if_false, List.length_append, List.length_cons,
        List.length_nil]
      omega

theorem natToDecimal_spec (n : Nat) :
    decValFrom 0 (natToDecimal n) = n ∧ (natToDecimal n).all decDigit = true :=
  decChars_spec (n + 1) n
    (lt_of_lt_of_le (Nat.lt_pow_self (by omega) n)
      (Nat.pow_le_pow_right (by omega) (Nat.le_succ n)))

theorem natToDecimal_ne_nil (n : Nat) : natToDecimal n ≠ [] :=
  decChars_ne_nil (n + 1) n (Nat.succ_pos n)

theorem natToDecimal_length_le (n k : Nat) (hn : n < 10 ^ k) (hk : 0 < k) :
    (natToDecimal n).length ≤ k :=
  decChars_length_le (n + 1) n k hn hk

theorem decDigit_ne_plus (c : Char) (h : decDigit c = true) : c ≠ '+' := by
  intro hc
  subst hc
  exact absurd h (by decide)

theorem decDigit_ne_minus (c : Char) (h : decDigit c = true) : c ≠ '-' := by
  intro hc
  subst hc
  exact absurd h (by decide)

theorem decDigit_ne_dot (c : Char) (h : decDigit c = true) : c ≠ '.' := by
  intro hc
  subst hc
  exact absurd h (by decide)

theorem decDigit_not_ws (c : Char) (h : decDigit c = true) : isWsChar c = false := by
  simp only [decDigit, Bool.and_eq_true, decide_eq_true_eq] at h
  simp only [isWsChar, Bool.or_eq_false_iff, beq_eq_false_iff_ne]
  refine ⟨⟨⟨?_, ?_⟩, ?_⟩, ?_⟩ <;>
    · intro hc
      subst hc
      exact absurd h (by decide)

theorem stripPlus_of_head_ne (c : Char) (cs : List Char) (h : c ≠ '+') :
    stripPlus (c :: cs) = c :: cs := by
  simp only [stripPlus]
  split
  · next heq =>
    injection heq with h1 _
    exact absurd h1 h
  · rfl

theorem parseU64_digits (cs : List Char) (hne : cs ≠ [])
    (hall : cs.all decDigit = true) (hlt : decValFrom 0 cs < u64Size) :
    parseU64 cs = some (decValFrom 0 cs) := by
  have hstrip : stripPlus cs = cs := by
    cases cs with
    | nil => rfl
    | cons c cs' =>
      have hc : decDigit c = true := by
        have := List.all_eq_true.mp hall
        exact this c (List.mem_cons_self c cs')
      exact stripPlus_of_head_ne c cs' (decDigit_ne_plus c hc)
  simp only [parseU64, hstrip]
  rw [if_neg (by simpa [List.isEmpty_eq_false] using hne), if_pos hall, if_pos hlt]

theorem parseU64_none_of_mem_nondigit (cs : List Char) (c : Char)
    (hmem : c ∈ cs) (hnd : decDigit c = false) (hnp : c ≠ '+') :
    parseU64 cs = none := by
  have hmem' : c ∈ stripPlus cs := by
    cases cs with
    | nil => cases hmem
    | cons d rest =>
      by_cases hd : d = '+'
      · subst hd
        rcases List.mem_cons.mp hmem with rfl | h
        · exact absurd rfl hnp
        · exact h
      · rw [stripPlus_of_head_ne d rest hd]
        exact hmem
  have hall : (stripPlus cs).all decDigit = false := by
    rcases h : (stripPlus cs).all decDigit with _ | _
    · rfl
    · have := List.all_eq_true.mp h c hmem'
      rw [this] at hnd
      cases hnd
  simp only [parseU64]
  by_cases he : (stripPlus cs).isEmpty = true
  · rw [if_pos he]
  · rw [if_neg he, if_neg (by simp [hall])]

theorem decValFrom_replicate_zero (k : Nat) (ds : List Char) :
    decValFrom 0 (List.replicate k '0' ++ ds) = decValFrom 0 ds := by
  induction k with
  | zero => rfl
  | succ k ih =>
    rw [List.replicate_succ, List.cons_append, decValFrom_cons]
    simpa using ih

theorem dropWhile_eq_self_of_none (p : Char → Bool) (cs : List Char)
    (h : ∀ c ∈ cs, p c = false) : cs.dropWhile p = cs := by
  cases cs with
  | nil => rfl
  | cons c cs' =>
    rw [List.dropWhile_cons, if_neg]
    simp [h c (List.mem_cons_self c cs')]

theorem trimChars_eq_self (cs : List Char) (h : ∀ c ∈ cs, isWsChar c = false) :
    trimChars cs = cs := by
  unfold trimChars
  rw [dropWhile_eq_self_of_none isWsChar cs h,
    dropWhile_eq_self_of_none isWsChar cs.reverse
      (fun c hc => h c (List.mem_reverse.mp hc)),
    List.reverse_reverse]

theorem splitOnChar_ne_nil (sep : Char) (l : List Char) :
    splitOnChar sep l ≠ [] := by
  cases l with
  | nil => simp [splitOnChar]
  | cons c cs =>
    simp only [splitOnChar]
    cases hsp : splitOnChar sep cs with
    | nil => by_cases hc : c = sep <;> simp [hc]
    | cons g gs => by_cases hc : c = sep <;> simp [hc]

theorem splitOnChar_of_not_mem (sep : Char) (l : List Char) (h : sep ∉ l) :
    splitOnChar sep l = [l] := by
  induction l with
  | nil => rfl
  | cons c cs ih =>
    have hc : c ≠ sep := fun hcc => h (hcc ▸ List.mem_cons_self c cs)
    have hcs : sep ∉ cs := fun hm => h (List.mem_cons_of_mem c hm)
    simp [splitOnChar, ih hcs, hc]

theorem splitOnChar_append (sep : Char) (l1 l2 : List Char) (h : sep ∉ l1) :
    splitOnChar sep (l1 ++ sep :: l2) = l1 :: splitOnChar sep l2 := by
  induction l1 with
  | nil =>
    cases hsp : splitOnChar sep l2 with
    | nil => exact absurd hsp (splitOnChar_ne_nil sep l2)
    | cons g gs => simp [splitOnChar, hsp]
  | cons c cs ih =>
    have hc : c ≠ sep := fun hcc => h (hcc ▸ List.mem_cons_self c cs)
    have hcs : sep ∉ cs := fun hm => h (List.mem_cons_of_mem c hm)
    rw [List.cons_append]
    simp only [splitOnChar, ih hcs]
    simp [hc]

/-- C6: for every `n` in `[0, 2⁶⁴ / 10⁹)`, parsing the formatted string
round-trips: `parse_iota_amount (nanos_to_iota n) = Ok n`. -/
theorem parse_format_roundtrip (n : Nat) (h : n < u64Size / NANOS_PER_IOTA) :
    parse_iota_amount (nanos_to_iota n) = .ok n := by
  have hn64 : n < u64Size := lt_of_lt_of_le h (Nat.div_le_self _ _)
  have hNpos : 0 < NANOS_PER_IOTA := by norm_num [NANOS_PER_IOTA]
  obtain ⟨hwval, hwall⟩ := natToDecimal_spec (n / NANOS_PER_IOTA)
  obtain ⟨hfval, hfall⟩ := natToDecimal_spec (n % NANOS_PER_IOTA)
  have hwne := natToDecimal_ne_nil (n / NANOS_PER_IOTA)
  have hmod : n % NANOS_PER_IOTA < 10 ^ 9 := by
    have := Nat.mod_lt n hNpos
    norm_num [NANOS_PER_IOTA] at this ⊢
    omega
  have hfle : (natToDecimal (n % NANOS_PER_IOTA)).length ≤ 9 :=
    natToDecimal_length_le _ 9 hmod (by omega)
  set wholeStr := natToDecimal (n / NANOS_PER_IOTA) with hwdef
  set fracStr := List.replicate (9 - (natToDecimal (n % NANOS_PER_IOTA)).length) '0' ++
    natToDecimal (n % NANOS_PER_IOTA) with hfdef
  have hflen : fracStr.length = 9 := by
    rw [hfdef, List.length_append, List.length_replicate]
    omega
  have hfall' : fracStr.all decDigit = true := by
    rw [hfdef, List.all_append, hfall, Bool.and_true, List.all_replicate]
    split
    · rfl
    · decide
  have hfval' : decValFrom 0 fracStr = n % NANOS_PER_IOTA := by
    rw [hfdef, decValFrom_replicate_zero, hfval]
  have hinput : nanos_to_iota n = wholeStr ++ '.' :: fracStr := rfl
  have hnows : ∀ c ∈ nanos_to_iota n, isWsChar c = false := by
    intro c hc
    rw [hinput] at hc
    rcases List.mem_append.mp hc with hc | hc
    · exact decDigit_not_ws c (List.all_eq_true.mp hwall c hc)
    · rcases List.mem_cons.mp hc with rfl | hc
      · decide
      · exact decDigit_not_ws c (List.all_eq_true.mp hfall' c hc)
  have hne_input : nanos_to_iota n ≠ [] := by
    rw [hinput]
    intro hcontra
    exact hwne (List.append_eq_nil.mp hcontra).1
  have hhead : (nanos_to_iota n).head? ≠ some '-' := by
    rw [hinput]
    obtain ⟨c, cs', hcons⟩ : ∃ c cs', wholeStr = c :: cs' := by
      cases hw : wholeStr with
      | nil => exact absurd hw hwne
      | cons c cs' => exact ⟨c, cs', rfl⟩
    rw [hcons, List.cons_append, List.head?_cons]
    have hcd : decDigit c = true :=
      List.all_eq_true.mp hwall c (by rw [hcons]; exact List.mem_cons_self c cs')
    intro hcontra
    exact decDigit_ne_minus c hcd (by injection hcontra)
  have hdotmem : '.' ∈ nanos_to_iota n := by
    rw [hinput]
    exact List.mem_append.mpr (Or.inr (List.mem_cons_self _ _))
  have hp64 : parseU64 (nanos_to_iota n) = none :=
    parseU64_none_of_mem_nondigit _ '.' hdotmem (by decide) (by decide)
  have hdnw : '.' ∉ wholeStr := by
    intro hmem
    exact decDigit_ne_dot '.' (List.all_eq_true.mp hwall '.' hmem) rfl
  have hdnf : '.' ∉ fracStr := by
    intro hmem
    exact decDigit_ne_dot '.' (List.all_eq_true.mp hfall' '.' hmem) rfl
  have hsplit : splitOnChar '.' (nanos_to_iota n) = [wholeStr, fracStr] := by
    rw [hinput, splitOnChar_append '.' wholeStr fracStr hdnw,
      splitOnChar_of_not_mem '.' fracStr hdnf]
  have hwlt : decValFrom 0 wholeStr < u64Size := by
    rw [hwval]
    exact lt_of_le_of_lt (Nat.div_le_self n _) hn64
  have hw64 : parseU64 wholeStr = some (n / NANOS_PER_IOTA) := by
    rw [parseU64_digits wholeStr hwne hwall hwlt, hwval]
  have hfne : fracStr ≠ [] := by
    intro hcontra
    rw [hcontra] at hflen
    simp at hflen
  have hflt : decValFrom 0 fracStr < u64Size := by
    rw [hfval']
    calc n % NANOS_PER_IOTA < 10 ^ 9 := hmod
      _ < u64Size := by norm_num [u64Size]
  have hf64 : parseU64 fracStr = some (n % NANOS_PER_IOTA) := by
    rw [parseU64_digits fracStr hfne hfall' hflt, hfval']
  have hmul_lt : n / NANOS_PER_IOTA * NANOS_PER_IOTA < u64Size :=
    lt_of_le_of_lt (Nat.div_mul_le_self n _) hn64
  have hsum : n / NANOS_PER_IOTA * NANOS_PER_IOTA + n % NANOS_PER_IOTA = n := by
    rw [Nat.mul_comm]
    exact Nat.div_add_mod n NANOS_PER_IOTA
  rw [parse_iota_amount, trimChars_eq_self _ hnows]
  simp only [parseIotaTrimmed, hsplit, hp64]
  rw [if_neg (by simp [List.isEmpty_eq_false, hne_input]), if_neg hhead]
  simp only [List.length_cons, List.length_nil, List.headD_cons, hw64]
  rw [if_neg (by omega)]
  rw [if_pos trivial]
  simp only [List.getD_cons_succ, List.getD_cons_zero]
  rw [if_neg (by simp [List.isEmpty_eq_false, hfne]), if_neg (by omega)]
  rw [hflen]
  simp only [Nat.sub_self, List.replicate_zero, List.append_nil, hf64]
  simp [checked_mul, checked_add, hmul_lt, hsum, hn64]

/-- C6 witness: the round-trip theorem applied at `n = 1_500_000_000`
(1.5 IOTA), with the range hypothesis discharged concretely. -/
theorem parse_format_roundtrip_witness :
    1500000000 < u64Size / NANOS_PER_IOTA ∧
    parse_iota_amount (nanos_to_iota 1500000000) = .ok 1500000000 :=
  ⟨by decide, parse_format_roundtrip 1500000000 (by decide)⟩

theorem joinSep_splitOnChar (sep : Char) (l : List Char) :
    joinSep sep (splitOnChar sep l) = l := by
  induction l with
  | nil => rfl
  | cons c cs ih =>
    cases hsp : splitOnChar sep cs with
    | nil => exact absurd hsp (splitOnChar_ne_nil sep cs)
    | cons g gs =>
      rw [hsp] at ih
      by_cases hc : c = sep
      · simp only [splitOnChar, hsp]
        rw [if_pos hc]
        show ([] : List Char) ++ sep :: joinSep sep (g :: gs) = c :: cs
        rw [List.nil_append, ih, hc]
      · simp only [splitOnChar, hsp]
        rw [if_neg hc]
        cases gs with
        | nil =>
          show c :: g = c :: cs
          rw [show g = cs from ih]
        | cons g2 gs2 =>
          show (c :: g) ++ sep :: joinSep sep (g2 :: gs2) = c :: cs
          rw [List.cons_append, ← ih]
          rfl

theorem splitOnChar_groups (sep : Char) (l : List Char) :
    ∀ g ∈ splitOnChar sep l, sep ∉ g := by
  induction l with
  | nil =>
    intro g hg
    rw [show splitOnChar sep [] = [[]] from rfl, List.mem_singleton] at hg
    subst hg
    exact List.not_mem_nil sep
  | cons c cs ih =>
    intro g hg
    cases hsp : splitOnChar sep cs with
    | nil => exact absurd hsp (splitOnChar_ne_nil sep cs)
    | cons g1 gs =>
      simp only [splitOnChar, hsp] at hg
      by_cases hc : c = sep
      · rw [if_pos hc] at hg
        rcases List.mem_cons.mp hg with rfl | hg
        · exact List.not_mem_nil sep
        · exact ih g (by rw [hsp]; exact hg)
      · rw [if_neg hc] at hg
        rcases List.mem_cons.mp hg with rfl | hg
        · intro hmem
          rcases List.mem_cons.mp hmem with heq | hmem
          · exact hc heq.symm
          · exact ih g1 (by rw [hsp]; exact List.mem_cons_self g1 gs) hmem
        · exact ih g (by rw [hsp]; exact List.mem_cons_of_mem g1 hg)

theorem parseU64_nil : parseU64 [] = none := rfl

theorem parseU64_some_ne_nil {cs : List Char} {v : Nat}
    (h : parseU64 cs = some v) : cs ≠ [] := by
  intro h0
  subst h0
  rw [parseU64_nil] at h
  cases h

theorem parseU64_head_minus (cs : List Char) (h : cs.head? = some '-') :
    parseU64 cs = none := by
  cases cs with
  | nil => cases h
  | cons c rest =>
    have hc : c = '-' := by simpa using h
    subst hc
    exact parseU64_none_of_mem_nondigit _ '-' (List.mem_cons_self _ _)
      (by decide) (by decide)

/-- C7 counterexample: `"+1"` is accepted by `parse_iota_amount` (Rust's
`u64` parsing tolerates a leading `+`) although it does not match the
claimed sign-less pattern; conversely `"18446744074"` matches the claimed
pattern but is rejected because the scaled value overflows `u64`. -/
theorem parse_amount_regex_claim_fails :
    parse_iota_amount "+1".data = .ok 1000000000 ∧
    specRegexAccepts "+1".data = false ∧
    specRegexAccepts "18446744074".data = true ∧
    parse_iota_amount "18446744074".data = .error "Amount too large" :=
  ⟨rfl, by decide, by decide, rfl⟩

/-- C7 (amended): `parse_iota_amount` succeeds exactly on inputs whose
trimmed form is a `u64` numeral with an optional leading `+` (interpreted
as whole IOTA) or such a numeral, a dot and at most nine further
characters that right-padded with zeros form a `u64` numeral (a stray
leading `+` is tolerated in the fractional part too), provided the
combined nano value fits in `u64`; it fails on every other input — in
particular on empty, negative, multi-dot, more-than-nine-fractional-digit
and non-numeric inputs. -/
theorem parse_iota_amount_characterization (cs : List Char) :
    (parse_iota_amount cs).isOk = amendedAccepts cs := by
  unfold parse_iota_amount amendedAccepts
  generalize trimChars cs = t
  cases hsp : splitOnChar '.' t with
  | nil => exact absurd hsp (splitOnChar_ne_nil '.' t)
  | cons g1 gs =>
    cases gs with
    | nil =>
      have hjoin : g1 = t := by
        have hj := joinSep_splitOnChar '.' t
        rw [hsp] at hj
        exact hj
      subst hjoin
      cases hp : parseU64 g1 with
      | some v =>
        have hne : g1 ≠ [] := parseU64_some_ne_nil hp
        have hhm : ¬ g1.head? = some '-' := by
          intro hm
          rw [parseU64_head_minus g1 hm] at hp
          cases hp
        by_cases hv : v * NANOS_PER_IOTA < u64Size <;>
          simp [parseIotaTrimmed, List.isEmpty_iff, hne, hhm, hp, checked_mul, hv,
            Except.isOk, Except.toBool]
      | none =>
        rcases g1 with _ | ⟨c, rest⟩
        · simp [parseIotaTrimmed, parseU64_nil, Except.isOk, Except.toBool]
        · by_cases hc : c = '-'
          · subst hc
            simp [parseIotaTrimmed, hp, Except.isOk, Except.toBool]
          · simp [parseIotaTrimmed, hp, hsp, hc, Except.isOk, Except.toBool]
    | cons g2 gs2 =>
      cases gs2 with
      | nil =>
        have hjoin : g1 ++ '.' :: g2 = t := by
          have hj := joinSep_splitOnChar '.' t
          rw [hsp] at hj
          exact hj
        have hf : '.' ∉ g2 :=
          splitOnChar_groups '.' t g2
            (by rw [hsp]; exact List.mem_cons_of_mem _ (List.mem_cons_self _ _))
        have hdot : '.' ∈ t := by
          rw [← hjoin]
          exact List.mem_append.mpr (Or.inr (List.mem_cons_self _ _))
        have hp64 : parseU64 t = none :=
          parseU64_none_of_mem_nondigit t '.' hdot (by decide) (by decide)
        have hne : t ≠ [] := by
          intro h0
          rw [h0] at hdot
          cases hdot
        by_cases hminus : t.head? = some '-'
        · have hw_none : parseU64 g1 = none := by
            rcases hg1 : g1 with _ | ⟨c, rest⟩
            · exfalso
              rw [← hjoin, hg1] at hminus
              simp at hminus
            · have hcm : c = '-' := by
                rw [← hjoin, hg1] at hminus
                simpa using hminus
              subst hcm
              exact parseU64_none_of_mem_nondigit _ '-' (List.mem_cons_self _ _)
                (by decide) (by decide)
          simp [parseIotaTrimmed, List.isEmpty_iff, hne, hminus, hw_none,
            Except.isOk, Except.toBool]
        · cases hpw : parseU64 g1 with
          | none =>
            simp [parseIotaTrimmed, List.isEmpty_iff, hne, hminus, hp64, hsp, hpw,
              Except.isOk, Except.toBool]
          | some wv =>
            by_cases hfe : g2 = []
            · by_cases hv : wv * NANOS_PER_IOTA < u64Size <;>
                simp [parseIotaTrimmed, List.isEmpty_iff, hne, hminus, hp64, hsp,
                  hpw, hfe, checked_mul, checked_add, hv, Except.isOk, Except.toBool]
            · by_cases hlen : 9 < g2.length
              · simp [parseIotaTrimmed, List.isEmpty_iff, hne, hminus, hp64, hsp,
                  hpw, hfe, hlen, Except.isOk, Except.toBool]
              · cases hpf : parseU64 (g2 ++ List.replicate (9 - g2.length) '0') with
                | none =>
                  simp [parseIotaTrimmed, List.isEmpty_iff, hne, hminus, hp64, hsp,
                    hpw, hfe, hlen, hpf, Except.isOk, Except.toBool]
                | some fv =>
                  by_cases hv1 : wv * NANOS_PER_IOTA < u64Size
                  · by_cases hv2 : wv * NANOS_PER_IOTA + fv < u64Size <;>
                      simp [parseIotaTrimmed, List.isEmpty_iff, hne, hminus, hp64,
                        hsp, hpw, hfe, hlen, hpf, checked_mul, checked_add, hv1, hv2,
                        Except.isOk, Except.toBool]
                  · simp [parseIotaTrimmed, List.isEmpty_iff, hne, hminus, hp64,
                      hsp, hpw, hfe, hlen, hpf, checked_mul, checked_add, hv1,
                      Except.isOk, Except.toBool]
      | cons g3 gs3 =>
        have hjoin : g1 ++ '.' :: joinSep '.' (g2 :: g3 :: gs3) = t := by
          have hj := joinSep_splitOnChar '.' t
          rw [hsp] at hj
          exact hj
        have hdot : '.' ∈ t := by
          rw [← hjoin]
          exact List.mem_append.mpr (Or.inr (List.mem_cons_self _ _))
        have hp64 : parseU64 t = none :=
          parseU64_none_of_mem_nondigit t '.' hdot (by decide) (by decide)
        have hne : t ≠ [] := by
          intro h0
          rw [h0] at hdot
          cases hdot
        by_cases hminus : t.head? = some '-'
        · simp [parseIotaTrimmed, List.isEmpty_iff, hne, hminus, Except.isOk, Except.toBool]
        · simp [parseIotaTrimmed, List.isEmpty_iff, hne, hminus, hp64, hsp,
            Except.isOk, Except.toBool]

end IotaWallet
